import Mathlib

/-!
Verification of the jest-hoist transform (packages/babel-plugin-jest-hoist).

The development shallowly embeds the plugin's data model and algorithms:
the call-chain detector (`extract`), the per-method validation rules
(`FUNCTIONS`, in particular `FUNCTIONS_mock` with its free-variable
validator `checkId`), the lazily created jest-object getter
(`declareJestObjGetterIdentifier`), and the two-pass per-block hoister
(`blockHoist` / `hoistStmt`).

Scope bookkeeping (bindings, globals, purity of an initializer, import
provenance) is the host traversal framework's contract (spec section 6);
it is embedded as data carried on the nodes: identifier nodes carry the
facts `scope.hasBinding` / `referencesImport` would report, and free
identifiers collected inside a mock factory carry their scope chain.
-/

namespace JestHoist

/-- Source constant `JEST_GLOBAL_NAME`. -/
def JEST_GLOBAL_NAME : String := "jest"

/-- Source constant `JEST_GLOBALS_MODULE_NAME`. -/
def JEST_GLOBALS_MODULE_NAME : String := "@jest/globals"

/-- Source constant `JEST_GLOBALS_MODULE_JEST_EXPORT_NAME`. -/
def JEST_GLOBALS_MODULE_JEST_EXPORT_NAME : String := "jest"

/-- Facts the scope collaborator reports about one identifier node:
whether `scope.hasBinding(JEST_GLOBAL_NAME)` holds at the node, and, when
the identifier references a named import, the module plus imported name
(with "*" standing for a namespace import), as `referencesImport` checks. -/
structure IdentInfo where
  hasJestBinding : Bool
  importRef : Option (String × String)
deriving Repr, DecidableEq

/-- Facts the scope collaborator reports about one resolved binding, as
used by `FUNCTIONS.mock`: whether `binding.path.isVariableDeclarator()`,
whether the declarator node has an `init`, `binding.constant`, whether
`scope.isPure(initNode, true)` holds for that init, and the identity of
the declarator node (standing for the object identity the `WeakSet`
`hoistedVariables` keys on). -/
structure BindingInfo where
  isVariableDeclarator : Bool
  hasInit : Bool
  isConstant : Bool
  initIsPure : Bool
  declId : Nat
deriving Repr, DecidableEq

/-- One lexical scope: its own bindings (`scope.bindings`) and the names
`scope.hasGlobal` reports. -/
structure Scope where
  bindings : List (String × BindingInfo)
  globals : List String
deriving Repr, DecidableEq

/-- A referenced identifier collected by `IDVisitor` inside a mock
factory: its name and its scope chain, listed from `id.scope` upward,
up to but excluding `moduleFactory.parentPath.scope` (the loop
`while (scope !== parentScope)` walks exactly this chain). -/
structure FreeId where
  name : String
  chain : List Scope
deriving Repr, DecidableEq

/-- Nodes of a mock-factory subtree as seen by `moduleFactory.traverse`
with `IDVisitor`: referenced identifiers, the three blacklisted
annotation node types (`TypeAnnotation`, `TSTypeAnnotation`,
`TSTypeReference`), and any other node with children. -/
inductive FNode where
  | refId (i : FreeId)
  | typeAnn (children : List FNode)
  | tsTypeAnn (children : List FNode)
  | tsTypeRef (children : List FNode)
  | node (children : List FNode)
deriving Repr

mutual
/-- `IDVisitor`: collect every `ReferencedIdentifier`, not descending
into the blacklisted annotation node types. -/
def collectIds : FNode → List FreeId
  | .refId i => [i]
  | .typeAnn _ => []
  | .tsTypeAnn _ => []
  | .tsTypeRef _ => []
  | .node cs => collectIdsList cs

def collectIdsList : List FNode → List FreeId
  | [] => []
  | c :: cs => collectIds c ++ collectIdsList cs
end

mutual
/-- All referenced identifiers of a factory subtree, blacklist ignored
(used only to state that an identifier does occur in the subtree). -/
def allRefIds : FNode → List FreeId
  | .refId i => [i]
  | .typeAnn cs => allRefIdsList cs
  | .tsTypeAnn cs => allRefIdsList cs
  | .tsTypeRef cs => allRefIdsList cs
  | .node cs => allRefIdsList cs

def allRefIdsList : List FNode → List FreeId
  | [] => []
  | c :: cs => allRefIds c ++ allRefIdsList cs
end

/-- The explicit base of `ALLOWED_IDENTIFIERS` from the source.  The
source additionally spreads `Object.getOwnPropertyNames(global)`, a
host-environment-dependent set the spec (section 9) directs to replace
with a fixed list; the embedding keeps the explicitly enumerated names. -/
def ALLOWED_IDENTIFIERS : List String :=
  ["Array", "ArrayBuffer", "Boolean", "BigInt", "DataView", "Date",
   "Error", "EvalError", "Float32Array", "Float64Array", "Function",
   "Generator", "GeneratorFunction", "Infinity", "Int16Array",
   "Int32Array", "Int8Array", "InternalError", "Intl", "JSON", "Map",
   "Math", "NaN", "Number", "Object", "Promise", "Proxy", "RangeError",
   "ReferenceError", "Reflect", "RegExp", "Set", "String", "Symbol",
   "SyntaxError", "TypeError", "URIError", "Uint16Array", "Uint32Array",
   "Uint8Array", "Uint8ClampedArray", "WeakMap", "WeakSet", "arguments",
   "console", "expect", "isNaN", "jest", "parseFloat", "parseInt",
   "exports", "require", "module", "__filename", "__dirname",
   "undefined"]

/-- The test of the regular expression `/^mock/i`: the first four
characters, lowercased, are `mock`. -/
def mockPrefixTest (name : String) : Bool :=
  (name.data.take 4).map Char.toLower == ['m', 'o', 'c', 'k']

/-- The test of the regular expression `/^(?:__)?cov/` (istanbul's
coverage variable). -/
def covTest (name : String) : Bool :=
  ['c', 'o', 'v'].isPrefixOf name.data
  || ['_', '_', 'c', 'o', 'v'].isPrefixOf name.data

/-- `scope.bindings[name]` of one scope (own bindings only). -/
def lookupBindingInfo (sc : Scope) (name : String) : Option BindingInfo :=
  sc.bindings.lookup name

/-- Truthiness of `scope.bindings[name]`. -/
def scopeHasOwnBinding (sc : Scope) (name : String) : Bool :=
  (lookupBindingInfo sc name).isSome

/-- `scope.hasGlobal(name)`. -/
def scopeHasGlobal (sc : Scope) (name : String) : Bool :=
  sc.globals.contains name

/-- Expressions, covering the shapes the plugin inspects.  `member`
carries the `computed` flag; non-computed member properties are
identifier names, as assumed by the cast in
`extractJestObjExprIfHoistable`.  A function expression carries the
scope of its parent path (`moduleFactory.parentPath.scope`) and its
subtree as seen by `IDVisitor`.  `otherLit` stands for any non-string
literal (numbers, booleans, null, regexes, templates), `otherExpr` for
every remaining expression form, none of which the plugin touches. -/
inductive Expr where
  | ident (name : String) (info : IdentInfo)
  | strLit (value : String)
  | otherLit (tag : Nat)
  | member (obj : Expr) (prop : String) (computed : Bool)
  | call (callee : Expr) (args : List Expr)
  | fn (parentScope : Scope) (body : List FNode)
  | otherExpr (tag : Nat)
deriving Repr

/-- `path.isStringLiteral()`. -/
def isStringLiteral : Expr → Bool
  | .strLit _ => true
  | _ => false

/-- `path.isLiteral()` (string literals are literals too). -/
def isLiteral : Expr → Bool
  | .strLit _ => true
  | .otherLit _ => true
  | _ => false

/-- `path.isFunction()`. -/
def isFunction : Expr → Bool
  | .fn _ _ => true
  | _ => false

/-- The two terminal errors the plugin raises (spec section 7):
`buildCodeFrameError` on the second `jest.mock` argument when it is not
a function, anchored at that argument, and the out-of-scope-reference
error anchored at the offending identifier, which names it. -/
inductive HoistError where
  | invalidFactoryArgument (arg : Expr)
  | outOfScopeReference (name : String)
deriving Repr

/-- The per-identifier body of the `for (const id of ids)` loop in
`FUNCTIONS.mock`: walk the scope chain toward the factory call's parent
scope; if unresolved, try the allow-list, the `mock` prefix and the
coverage pattern; failing those, accept a constant, initialized, pure
variable-declarator binding of the parent scope and record its
declarator in `hoistedVariables` (returned here as the list of newly
recorded declarator identities); otherwise raise the terminal error. -/
def checkId (parentScope : Scope) (i : FreeId) :
    Except HoistError (List Nat) :=
  let found := i.chain.any fun sc => scopeHasOwnBinding sc i.name
  if found then .ok []
  else
    let isAllowedIdentifier :=
      (scopeHasGlobal parentScope i.name
        && ALLOWED_IDENTIFIERS.contains i.name)
      || mockPrefixTest i.name
      || covTest i.name
    if isAllowedIdentifier then .ok []
    else
      match lookupBindingInfo parentScope i.name with
      | some b =>
        if b.isVariableDeclarator && b.hasInit && b.isConstant
            && b.initIsPure then
          .ok [b.declId]
        else .error (.outOfScopeReference i.name)
      | none => .error (.outOfScopeReference i.name)

/-- The whole `for (const id of ids)` loop, accumulating the declarator
identities added to `hoistedVariables`. -/
def checkIds (parentScope : Scope) : List FreeId →
    Except HoistError (List Nat)
  | [] => .ok []
  | i :: rest =>
    match checkId parentScope i with
    | .error e => .error e
    | .ok a =>
      match checkIds parentScope rest with
      | .error e => .error e
      | .ok b => .ok (a ++ b)

/-- `FUNCTIONS.mock`.  Returns the boolean the source returns, paired
with the declarator identities it added to `hoistedVariables`. -/
def FUNCTIONS_mock (args : List Expr) :
    Except HoistError (Bool × List Nat) :=
  match args with
  | [a] => .ok (isStringLiteral a || isLiteral a, [])
  | [_, moduleFactory] | [_, moduleFactory, _] =>
    match moduleFactory with
    | .fn parentScope body =>
      match checkIds parentScope (collectIdsList body) with
      | .error e => .error e
      | .ok adds => .ok (true, adds)
    | _ => .error (.invalidFactoryArgument moduleFactory)
  | _ => .ok (false, [])

/-- `FUNCTIONS.unmock` and `FUNCTIONS.deepUnmock`. -/
def FUNCTIONS_unmock (args : List Expr) :
    Except HoistError (Bool × List Nat) :=
  match args with
  | [a] => .ok (isStringLiteral a, [])
  | _ => .ok (false, [])

/-- `FUNCTIONS.disableAutomock` and `FUNCTIONS.enableAutomock`. -/
def FUNCTIONS_automock (args : List Expr) :
    Except HoistError (Bool × List Nat) :=
  .ok (args.isEmpty, [])

/-- The `FUNCTIONS` record: the per-method validation rules, keyed by
the trailing method name; any other name has no rule. -/
def FUNCTIONS (name : String) :
    Option (List Expr → Except HoistError (Bool × List Nat)) :=
  if name == "mock" then some FUNCTIONS_mock
  else if name == "unmock" then some FUNCTIONS_unmock
  else if name == "deepUnmock" then some FUNCTIONS_unmock
  else if name == "disableAutomock" then some FUNCTIONS_automock
  else if name == "enableAutomock" then some FUNCTIONS_automock
  else none

/-- `path.referencesImport(moduleName, exportName)`: true only for a
referenced identifier whose binding is the matching import specifier
("*" marks a namespace import). -/
def referencesImport (e : Expr) (moduleName exportName : String) : Bool :=
  match e with
  | .ident _ info => info.importRef == some (moduleName, exportName)
  | _ => false

/-- `isJestObject`: the three rules proving an expression denotes the
jest object — the unbound global identifier `jest`, a named import of
`jest` from `@jest/globals`, or a non-computed member `NS.jest` off a
namespace import of `@jest/globals`. -/
def isJestObject (e : Expr) : Bool :=
  match e with
  | .ident name info =>
    (name == JEST_GLOBAL_NAME && !info.hasJestBinding)
    || referencesImport (.ident name info) JEST_GLOBALS_MODULE_NAME
        JEST_GLOBALS_MODULE_JEST_EXPORT_NAME
  | .member obj prop false =>
    referencesImport obj JEST_GLOBALS_MODULE_NAME "*"
    && prop == JEST_GLOBALS_MODULE_JEST_EXPORT_NAME
  | _ => false

/-- `extractJestObjExprIfHoistable`.  Returns the resolved jest-object
expression (`null` modeled as `none`), paired with the declarator
identities added to `hoistedVariables` while validating; a thrown
validation error is the `Except.error` case.  The jest-object resolution
of the receiver is evaluated before the trailing method's validation
rule, exactly as in the source. -/
def extract : Expr → Except HoistError (Option Expr × List Nat)
  | .call (.member obj prop false) args =>
    match (if isJestObject obj then .ok (some obj, []) else extract obj :
        Except HoistError (Option Expr × List Nat)) with
    | .error e => .error e
    | .ok (none, adds) => .ok (none, adds)
    | .ok (some jestObjExpr, adds) =>
      match FUNCTIONS prop with
      | none => .ok (none, adds)
      | some rule =>
        match rule args with
        | .error e => .error e
        | .ok (functionLooksHoistable, adds2) =>
          if functionLooksHoistable then .ok (some jestObjExpr, adds ++ adds2)
          else .ok (none, adds ++ adds2)
  | _ => .ok (none, [])

/-- One variable declarator.  `declId` is the node identity the
`hoistedVariables` `WeakSet` keys on. -/
structure Declarator where
  declId : Nat
  name : String
  init : Option Expr
deriving Repr

/-- Statements.  `getterDecl` is the function declaration the template
`createJestObjectGetter` produces (requiring `@jest/globals`,
memoizing by reassigning its own binding); the claims treat its body as
opaque.  `ifStmt` has one non-block or block substatement; `other`
stands for any remaining statement form the plugin does not touch. -/
inductive Stmt where
  | exprStmt (e : Expr)
  | varDecl (kind : String) (decls : List Declarator)
  | block (stmts : List Stmt)
  | ifStmt (cond : Expr) (body : Stmt)
  | getterDecl (name : String)
  | emptyStmt
  | other (tag : Nat)
deriving Repr

/-- The name `program.scope.generateUidIdentifier('getJestObj')`
produces; collision-freedom is the scope collaborator's contract. -/
def getterName : String := "_getJestObj"

/-- `isIdentifier(callee) && callee.name === self.jestObjGetterIdentifier?.name`;
when no getter was ever created the optional chain yields `undefined`
and the comparison with a real name is false, so `none` matches
nothing. -/
def isGetterCallee (g : Option String) : Expr → Bool
  | .ident n _ => some n == g
  | _ => false

mutual
/-- Does the expression contain a `CallExpression` whose callee is the
getter identifier?  Mirrors the per-block traversal, which enters
arbitrary expressions but no `BlockStatement` (function bodies in this
model hold no statements, so `fn` contributes nothing). -/
def exprHasGetterCall (g : Option String) : Expr → Bool
  | .call callee args =>
    isGetterCallee g callee || exprHasGetterCall g callee
    || exprListHasGetterCall g args
  | .member obj _ _ => exprHasGetterCall g obj
  | _ => false

def exprListHasGetterCall (g : Option String) : List Expr → Bool
  | [] => false
  | e :: es => exprHasGetterCall g e || exprListHasGetterCall g es
end

/-- Does a direct child statement of the block get moved by
`visitCallExpr`?  A getter call inside the statement has the statement
as its `getStatementParent` exactly when it sits in the statement's own
expression layer: the expression of an expression statement, a
declarator initializer, or the condition of an `if` (a call inside the
`if` substatement has that substatement as its statement parent, whose
parent is not the block, so it is not moved). -/
def stmtGetterHoistable (g : Option String) : Stmt → Bool
  | .exprStmt e => exprHasGetterCall g e
  | .varDecl _ ds => ds.any fun d =>
      match d.init with
      | some e => exprHasGetterCall g e
      | none => false
  | .ifStmt c _ => exprHasGetterCall g c
  | _ => false

/-- Accumulator of one `visitBlock` run: the statements inserted before
`varsHoistPoint`, those inserted before `callsHoistPoint`, and the
statements left in place, each in traversal order. -/
structure HoistAcc where
  vars : List Stmt
  calls : List Stmt
  kept : List Stmt
deriving Repr

/-- One step of the per-block traversal over a direct child statement:
`visitVariableDeclarator` extracts every declarator recorded in
`hoistedVariables` as a fresh single-declarator declaration of the same
kind inserted before the variable anchor (removing the whole
declaration when no declarator remains), and `visitCallExpr` moves a
statement owning a getter call before the call anchor. -/
def hoistStep (g : Option String) (hv : List Nat) (acc : HoistAcc)
    (s : Stmt) : HoistAcc :=
  match s with
  | .varDecl kind ds =>
    let moved := ds.filter fun d => hv.contains d.declId
    let rest := ds.filter fun d => !hv.contains d.declId
    let acc1 := { acc with
      vars := acc.vars ++ moved.map fun d => Stmt.varDecl kind [d] }
    if rest.isEmpty then acc1
    else if stmtGetterHoistable g (.varDecl kind rest) then
      { acc1 with calls := acc1.calls ++ [Stmt.varDecl kind rest] }
    else { acc1 with kept := acc1.kept ++ [Stmt.varDecl kind rest] }
  | s =>
    if stmtGetterHoistable g s then { acc with calls := acc.calls ++ [s] }
    else { acc with kept := acc.kept ++ [s] }

/-- `visitBlock` on one block's statement list: insert the two anchors
(variable anchor first), traverse the direct statements in order moving
matches before their anchor, remove the anchors.  The final list is the
variable block, then the call block, then everything left in place. -/
def blockHoist (g : Option String) (hv : List Nat)
    (ss : List Stmt) : List Stmt :=
  let a := ss.foldl (hoistStep g hv) ⟨[], [], []⟩
  a.vars ++ a.calls ++ a.kept

mutual
/-- The whole `post` pass below one statement: every `BlockStatement`
(at any depth) receives its own block-local `visitBlock`.  Children are
processed before the enclosing block's reordering; this is equivalent
to the source's outer-first visit order because `blockHoist` never
inspects the inside of a nested block. -/
def hoistStmt (g : Option String) (hv : List Nat) : Stmt → Stmt
  | .block ss => .block (blockHoist g hv (hoistStmts g hv ss))
  | .ifStmt c b => .ifStmt c (hoistStmt g hv b)
  | s => s

def hoistStmts (g : Option String) (hv : List Nat) :
    List Stmt → List Stmt
  | [] => []
  | s :: ss => hoistStmt g hv s :: hoistStmts g hv ss
end

/-- The whole `post` pass: `visitBlock(program)` plus
`program.traverse(\x7bBlockStatement: visitBlock\x7d)`. -/
def hoistProgram (g : Option String) (hv : List Nat)
    (prog : List Stmt) : List Stmt :=
  blockHoist g hv (hoistStmts g hv prog)

/-- `jestObjExpr.replaceWith(callExpression(getterId, []))`: rebuild the
chain with the resolved jest-object root replaced by a zero-argument
call of the getter, leaving the rest of the chain intact. -/
def replaceJestRoot (g : String) : Expr → Expr
  | .call (.member obj prop false) args =>
    if isJestObject obj then
      .call (.member (.call (.ident g ⟨false, none⟩) []) prop false) args
    else .call (.member (replaceJestRoot g obj) prop false) args
  | e => e

mutual
/-- The main visitor pass below one statement: every
`ExpressionStatement` (at any depth) runs the detector on its
expression and, when hoistable, replaces the resolved jest-object
reference with a getter call.  Returns the rewritten statement, the
declarator identities added to `hoistedVariables`, and whether any
rewrite happened (which is what forces getter creation). -/
def rewriteStmt : Stmt → Except HoistError (Stmt × List Nat × Bool)
  | .exprStmt e =>
    match extract e with
    | .error err => .error err
    | .ok (some _, adds) =>
      .ok (.exprStmt (replaceJestRoot getterName e), adds, true)
    | .ok (none, adds) => .ok (.exprStmt e, adds, false)
  | .block ss =>
    match rewriteStmts ss with
    | .error err => .error err
    | .ok (ss2, adds, r) => .ok (.block ss2, adds, r)
  | .ifStmt c b =>
    match rewriteStmt b with
    | .error err => .error err
    | .ok (b2, adds, r) => .ok (.ifStmt c b2, adds, r)
  | s => .ok (s, [], false)

def rewriteStmts : List Stmt → Except HoistError (List Stmt × List Nat × Bool)
  | [] => .ok ([], [], false)
  | s :: ss =>
    match rewriteStmt s with
    | .error err => .error err
    | .ok (s2, adds, r) =>
      match rewriteStmts ss with
      | .error err => .error err
      | .ok (ss2, adds2, r2) => .ok (s2 :: ss2, adds ++ adds2, r || r2)
end

/-- The whole plugin on one program: the visitor pass (which lazily
creates the getter declaration at the program front on the first
rewrite), then the `post` hoisting pass.  `hv0` is the content of the
module-level `hoistedVariables` registry when the run starts; the run
returns the output program, the updated registry, and the getter
identifier if one was created. -/
def runTransform (hv0 : List Nat) (prog : List Stmt) :
    Except HoistError (List Stmt × List Nat × Option String) :=
  match rewriteStmts prog with
  | .error e => .error e
  | .ok (prog2, adds, created) =>
    let g : Option String := if created then some getterName else none
    let prog3 := if created then Stmt.getterDecl getterName :: prog2
                 else prog2
    let hv := hv0 ++ adds
    .ok (hoistProgram g hv prog3, hv, g)

/-- The plugin state holding `jestObjGetterIdentifier`, plus the program
body it unshifts the getter declaration into. -/
structure PState where
  jestObjGetterIdentifier : Option String
  program : List Stmt
deriving Repr

/-- `declareJestObjGetterIdentifier` from `pre`: return the cached
identifier if present; otherwise generate the uid, cache it, and
unshift the getter declaration as the first statement of the program. -/
def declareJestObjGetterIdentifier (s : PState) : String × PState :=
  match s.jestObjGetterIdentifier with
  | some id => (id, s)
  | none =>
    (getterName,
     { jestObjGetterIdentifier := some getterName,
       program := Stmt.getterDecl getterName :: s.program })

/-- Iterate the state effect of `declareJestObjGetterIdentifier`. -/
def declareGetterIter : Nat → PState → PState
  | 0, s => s
  | n + 1, s => declareGetterIter n (declareJestObjGetterIdentifier s).2

/-- How many getter declarations a statement list holds. -/
def countGetterDecls (ss : List Stmt) : Nat :=
  (ss.filter fun s =>
    match s with
    | .getterDecl _ => true
    | _ => false).length

/-- An expression statement is inert for the visitor pass when the
detector returns `null` on it; the recorded declarator identities must
already be members of `hv`.  Used to show a transformed program passes
through a second visitor run unchanged. -/
def exprInert (hv : List Nat) (e : Expr) : Bool :=
  match extract e with
  | .ok (none, adds) => adds.all fun x => hv.contains x
  | _ => false

mutual
/-- Every expression statement below this statement is inert. -/
def stmtInert (hv : List Nat) : Stmt → Bool
  | .exprStmt e => exprInert hv e
  | .block ss => stmtsInert hv ss
  | .ifStmt _ b => stmtInert hv b
  | _ => true

def stmtsInert (hv : List Nat) : List Stmt → Bool
  | [] => true
  | s :: ss => stmtInert hv s && stmtsInert hv ss
end

/-! ### Concrete fixtures used by witnesses and examples -/

/-- The unbound global identifier `jest`. -/
def jestGlobalIdent : Expr := .ident "jest" ⟨false, none⟩

/-- A zero-argument call of the synthesized getter. -/
def getterCallExpr : Expr := .call (.ident getterName ⟨false, none⟩) []

/-- A rewritten hoistable statement `_getJestObj().mock("m")`. -/
def hoistedCallStmt (m : String) : Stmt :=
  .exprStmt (.call (.member getterCallExpr "mock" false) [.strLit m])

/-- A not-yet-rewritten statement `jest.mock("m")`. -/
def jestMockStmt (m : String) : Stmt :=
  .exprStmt (.call (.member jestGlobalIdent "mock" false) [.strLit m])

/-- A factory subtree whose only referenced identifiers sit inside the
three blacklisted annotation node types. -/
def annOnlyBody (i1 i2 i3 : FreeId) : List FNode :=
  [.typeAnn [.refId i1], .tsTypeAnn [.refId i2], .tsTypeRef [.refId i3]]

/-- Call-site scope binding `x` as a constant, initialized, pure
variable declarator (declarator identity 5): `const x = 1`. -/
def constPureScope : Scope := ⟨[("x", ⟨true, true, true, true, 5⟩)], []⟩

/-- Call-site scope binding `x` as a reassigned (non-constant)
variable declarator: `let x = 1; x = 2`. -/
def reassignedScope : Scope := ⟨[("x", ⟨true, true, false, true, 5⟩)], []⟩

/-! ### The three buckets of one `visitBlock` run -/

/-- The single-declarator declarations `visitVariableDeclarator` inserts
before the variable anchor for one direct statement. -/
def hoistedVarPieces (hv : List Nat) (s : Stmt) : List Stmt :=
  match s with
  | .varDecl kind ds =>
    (ds.filter fun d => hv.contains d.declId).map fun d =>
      Stmt.varDecl kind [d]
  | _ => []

/-- What remains of one direct statement after declarator extraction
(`none` when the whole declaration was removed). -/
def remainderAfterVarHoist (hv : List Nat) (s : Stmt) : Option Stmt :=
  match s with
  | .varDecl kind ds =>
    let rest := ds.filter fun d => !hv.contains d.declId
    if rest.isEmpty then none else some (.varDecl kind rest)
  | s => some s

/-- The statement `visitCallExpr` moves before the call anchor for one
direct statement, if any. -/
def hoistedCallOf (g : Option String) (hv : List Nat) (s : Stmt) :
    Option Stmt :=
  match remainderAfterVarHoist hv s with
  | none => none
  | some s2 => if stmtGetterHoistable g s2 then some s2 else none

/-- The statement left in place for one direct statement, if any. -/
def keptOf (g : Option String) (hv : List Nat) (s : Stmt) :
    Option Stmt :=
  match remainderAfterVarHoist hv s with
  | none => none
  | some s2 => if stmtGetterHoistable g s2 then none else some s2

/-- All hoisted variable declarations of a block, in original order. -/
def hoistedVarsOf (hv : List Nat) (ss : List Stmt) : List Stmt :=
  ss.flatMap (hoistedVarPieces hv)

/-- All hoisted getter-call statements of a block, in original order. -/
def hoistedCallsOf (g : Option String) (hv : List Nat)
    (ss : List Stmt) : List Stmt :=
  ss.filterMap (hoistedCallOf g hv)

/-- All statements of a block left in place, in original order. -/
def keptStmtsOf (g : Option String) (hv : List Nat)
    (ss : List Stmt) : List Stmt :=
  ss.filterMap (keptOf g hv)

theorem hoistStep_spec (g : Option String) (hv : List Nat)
    (acc : HoistAcc) (s : Stmt) :
    hoistStep g hv acc s =
      ⟨acc.vars ++ hoistedVarPieces hv s,
       acc.calls ++ (hoistedCallOf g hv s).toList,
       acc.kept ++ (keptOf g hv s).toList⟩ := by
  cases s <;>
    simp only [hoistStep, hoistedVarPieces, hoistedCallOf, keptOf,
      remainderAfterVarHoist] <;>
    (repeat' split) <;> simp_all

theorem foldl_hoistStep (g : Option String) (hv : List Nat)
    (ss : List Stmt) (acc : HoistAcc) :
    ss.foldl (hoistStep g hv) acc =
      ⟨acc.vars ++ hoistedVarsOf hv ss,
       acc.calls ++ hoistedCallsOf g hv ss,
       acc.kept ++ keptStmtsOf g hv ss⟩ := by
  induction ss generalizing acc with
  | nil => simp [hoistedVarsOf, hoistedCallsOf, keptStmtsOf]
  | cons s rest ih =>
    simp only [List.foldl_cons, hoistStep_spec, ih, hoistedVarsOf,
      hoistedCallsOf, keptStmtsOf, List.flatMap_cons, List.filterMap_cons]
    cases hoistedCallOf g hv s <;> cases keptOf g hv s <;> simp

/-- `visitBlock` computes exactly: hoisted variable declarations first
(original order), then hoisted getter-call statements (original order),
then everything left, in its original relative order. -/
theorem blockHoist_parts (g : Option String) (hv : List Nat)
    (ss : List Stmt) :
    blockHoist g hv ss =
      hoistedVarsOf hv ss ++ hoistedCallsOf g hv ss
        ++ keptStmtsOf g hv ss := by
  simp [blockHoist, foldl_hoistStep]

theorem checkId_error_shape (ps : Scope) (i : FreeId) (e : HoistError)
    (h : checkId ps i = .error e) : e = .outOfScopeReference i.name := by
  unfold checkId at h
  repeat' split at h <;> simp_all

theorem checkIds_error_shape (ps : Scope) (ids : List FreeId)
    (e : HoistError) (h : checkIds ps ids = .error e) :
    ∃ n, e = .outOfScopeReference n := by
  induction ids with
  | nil => simp [checkIds] at h
  | cons i rest ih =>
    simp only [checkIds] at h
    cases hc : checkId ps i with
    | error e2 =>
      rw [hc] at h
      simp only [Except.error.injEq] at h
      exact ⟨i.name, by rw [← h]; exact checkId_error_shape ps i e2 hc⟩
    | ok a =>
      rw [hc] at h
      cases hr : checkIds ps rest with
      | error e2 =>
        rw [hr] at h
        simp only [Except.error.injEq] at h
        subst h
        exact ih hr
      | ok b => rw [hr] at h; simp at h

/-- C1: after the transform's per-block pass, every block's statement
list is the hoisted variable declarations in their original relative
order, then the hoisted getter-call statements in their original
relative order, then all remaining statements in their original
relative order; concretely, `[A, call("x"), B, call("y")]` becomes
`[call("x"), call("y"), A, B]`. -/
theorem c1_block_statement_order :
    (∀ (g : Option String) (hv : List Nat) (ss : List Stmt),
      blockHoist g hv ss =
        hoistedVarsOf hv ss ++ hoistedCallsOf g hv ss
          ++ keptStmtsOf g hv ss)
    ∧ blockHoist (some getterName) []
        [.other 0, hoistedCallStmt "x", .other 1, hoistedCallStmt "y"]
      = [hoistedCallStmt "x", hoistedCallStmt "y", .other 0, .other 1] :=
  ⟨blockHoist_parts, rfl⟩

/-- C2: when the receiver chain of a non-computed method call does not
resolve to the jest object, the detector returns null and no validation
rule runs, whatever the trailing method name and arguments are, so no
error is raised and the expression statement is left untouched. -/
theorem c2_non_jest_chain_untouched :
    ∀ (obj : Expr) (prop : String) (args : List Expr) (a : List Nat),
    isJestObject obj = false →
    extract obj = .ok (none, a) →
    extract (.call (.member obj prop false) args) = .ok (none, a)
    ∧ rewriteStmt (.exprStmt (.call (.member obj prop false) args))
        = .ok (.exprStmt (.call (.member obj prop false) args), a,
            false) := by
  intro obj prop args a h1 h2
  have he : extract (.call (.member obj prop false) args)
      = .ok (none, a) := by
    simp [extract, h1, h2]
  exact ⟨he, by simp [rewriteStmt, he]⟩

/-- Witness for C2: a user object's own `mock` method with a
non-function second argument is left untouched with no error, although
the `mock` rule itself would reject those arguments. -/
theorem c2_witness :
    (extract (.call (.member (.ident "myObj" ⟨false, none⟩) "mock"
        false) [.strLit "m", .otherLit 42]) = .ok (none, [])
      ∧ rewriteStmt (.exprStmt (.call (.member
          (.ident "myObj" ⟨false, none⟩) "mock" false)
          [.strLit "m", .otherLit 42]))
        = .ok (.exprStmt (.call (.member
            (.ident "myObj" ⟨false, none⟩) "mock" false)
            [.strLit "m", .otherLit 42]), [], false))
    ∧ FUNCTIONS_mock [.strLit "m", .otherLit 42]
        = .error (.invalidFactoryArgument (.otherLit 42)) :=
  ⟨c2_non_jest_chain_untouched (.ident "myObj" ⟨false, none⟩) "mock"
      [.strLit "m", .otherLit 42] [] rfl rfl, rfl⟩

/-- C3: a free factory identifier that is unresolved in the chain and
not allow-listed or convention-matched is accepted with its declarator
recorded as hoist-eligible exactly when the parent-scope binding is a
variable declarator with an initializer, constant, and pure; in every
other case the terminal out-of-scope error naming the identifier is
raised. -/
theorem c3_constant_pure_declarator_rule :
    ∀ (ps : Scope) (name : String) (chain : List Scope),
    (chain.any fun sc => scopeHasOwnBinding sc name) = false →
    ((scopeHasGlobal ps name && ALLOWED_IDENTIFIERS.contains name)
      || mockPrefixTest name || covTest name) = false →
    (∀ b : BindingInfo, lookupBindingInfo ps name = some b →
      ((b.isVariableDeclarator && b.hasInit && b.isConstant
          && b.initIsPure) = true →
        checkId ps ⟨name, chain⟩ = .ok [b.declId])
      ∧ ((b.isVariableDeclarator && b.hasInit && b.isConstant
          && b.initIsPure) = false →
        checkId ps ⟨name, chain⟩
          = .error (.outOfScopeReference name)))
    ∧ (lookupBindingInfo ps name = none →
      checkId ps ⟨name, chain⟩ = .error (.outOfScopeReference name)) := by
  intro ps name chain h1 h2
  constructor
  · intro b hb
    constructor <;> intro hcond <;>
      (unfold checkId; simp only [h1, h2, hb, hcond]; simp)
  · intro hb
    unfold checkId
    simp only [h1, h2, hb]
    simp

/-- Witness for C3: `const x = 1` is accepted with declarator 5 marked
hoist-eligible; `let x = 1; x = 2` raises the out-of-scope error; the
same outcomes end to end through `FUNCTIONS.mock`. -/
theorem c3_witness :
    checkId constPureScope ⟨"x", []⟩ = .ok [5]
    ∧ checkId reassignedScope ⟨"x", []⟩
        = .error (.outOfScopeReference "x")
    ∧ FUNCTIONS_mock [.strLit "m", .fn constPureScope
        [.refId ⟨"x", []⟩]] = .ok (true, [5])
    ∧ FUNCTIONS_mock [.strLit "m", .fn reassignedScope
        [.refId ⟨"x", []⟩]] = .error (.outOfScopeReference "x") :=
  ⟨((c3_constant_pure_declarator_rule constPureScope "x" []
      rfl rfl).1 _ rfl).1 rfl,
   ⟨((c3_constant_pure_declarator_rule reassignedScope "x" []
      rfl rfl).1 _ rfl).2 rfl, rfl, rfl⟩⟩

/-- Counterexample to C4: a 2-argument `mock` call whose first argument
is an identifier (not a literal of any kind) is accepted by the rule
and the whole call is accepted as hoistable by the detector. -/
theorem c4_counterexample :
    isLiteral (.ident "modName" ⟨false, none⟩) = false
    ∧ FUNCTIONS_mock [.ident "modName" ⟨false, none⟩, .fn ⟨[], []⟩ []]
        = .ok (true, [])
    ∧ extract (.call (.member jestGlobalIdent "mock" false)
        [.ident "modName" ⟨false, none⟩, .fn ⟨[], []⟩ []])
        = .ok (some jestGlobalIdent, []) :=
  ⟨rfl, rfl, rfl⟩

/-- C4 (amended): the 2/3-argument mock-with-factory form does not
validate its first argument at all — the outcome depends only on the
later arguments, and any first argument with a function second argument
is accepted. -/
theorem c4_amended_first_arg_unchecked :
    (∀ (a b f : Expr) (rest : List Expr),
      FUNCTIONS_mock (a :: f :: rest) = FUNCTIONS_mock (b :: f :: rest))
    ∧ (∀ (a : Expr) (ps : Scope),
      FUNCTIONS_mock [a, .fn ps []] = .ok (true, [])) := by
  constructor
  · intro a b f rest
    match rest with
    | [] => rfl
    | [c] => rfl
    | c :: d :: r => rfl
  · intro a ps
    rfl

/-- C6: the getter accessor creation is idempotent — the first call
inserts the getter declaration at the very front of the program and
caches the identifier, every later call returns the same identifier
without inserting anything, and iterating it any number of times leaves
at most one getter declaration in the program. -/
theorem c6_getter_creation_idempotent :
    (∀ s : PState, s.jestObjGetterIdentifier = none →
      declareJestObjGetterIdentifier s =
        (getterName,
         ⟨some getterName, .getterDecl getterName :: s.program⟩))
    ∧ (∀ (s : PState) (id : String),
        s.jestObjGetterIdentifier = some id →
        declareJestObjGetterIdentifier s = (id, s))
    ∧ (∀ s : PState,
        declareJestObjGetterIdentifier
            (declareJestObjGetterIdentifier s).2
          = ((declareJestObjGetterIdentifier s).1,
             (declareJestObjGetterIdentifier s).2))
    ∧ (∀ (s : PState) (n : Nat), s.jestObjGetterIdentifier = none →
        countGetterDecls s.program = 0 →
        countGetterDecls (declareGetterIter n s).program ≤ 1) := by
  have hcached : ∀ (n : Nat) (s : PState) (id : String),
      s.jestObjGetterIdentifier = some id →
      declareGetterIter n s = s := by
    intro n
    induction n with
    | zero => intro s id h; rfl
    | succ n ih =>
      intro s id h
      show declareGetterIter n (declareJestObjGetterIdentifier s).2 = s
      rw [show declareJestObjGetterIdentifier s = (id, s) by
        simp [declareJestObjGetterIdentifier, h]]
      exact ih s id h
  refine ⟨?_, ?_, ?_, ?_⟩
  · intro s h
    simp [declareJestObjGetterIdentifier, h]
  · intro s id h
    simp [declareJestObjGetterIdentifier, h]
  · intro s
    cases h : s.jestObjGetterIdentifier with
    | some id => simp [declareJestObjGetterIdentifier, h]
    | none => simp [declareJestObjGetterIdentifier, h]
  · intro s n h hc
    cases n with
    | zero => simp [declareGetterIter, hc]
    | succ n =>
      show countGetterDecls
        (declareGetterIter n (declareJestObjGetterIdentifier s).2).program ≤ 1
      rw [show declareJestObjGetterIdentifier s =
          (getterName,
           ⟨some getterName, .getterDecl getterName :: s.program⟩) by
        simp [declareJestObjGetterIdentifier, h]]
      rw [hcached n _ getterName rfl]
      simp only [countGetterDecls, List.filter_cons] at hc ⊢
      simp_all

/-- Witness for C6: on a fresh one-statement program the first call
inserts the declaration at the front, and three successive calls leave
exactly one declaration. -/
theorem c6_witness :
    declareJestObjGetterIdentifier ⟨none, [.other 0]⟩
      = (getterName,
         ⟨some getterName, [.getterDecl getterName, .other 0]⟩)
    ∧ countGetterDecls
        (declareGetterIter 3 ⟨none, [.other 0]⟩).program ≤ 1 :=
  ⟨c6_getter_creation_idempotent.1 ⟨none, [.other 0]⟩ rfl,
   c6_getter_creation_idempotent.2.2.2 ⟨none, [.other 0]⟩ 3 rfl rfl⟩

/-- C7: for a 2- or 3-argument call to the `mock` rule, the terminal
invalid-factory error anchored at the second argument is raised exactly
when that second argument is not a function expression. -/
theorem c7_invalid_factory_iff :
    ∀ (a1 f : Expr) (rest : List Expr), rest.length ≤ 1 →
    (FUNCTIONS_mock (a1 :: f :: rest)
        = .error (.invalidFactoryArgument f)
      ↔ isFunction f = false) := by
  intro a1 f rest hlen
  have hcases : rest = [] ∨ ∃ c, rest = [c] := by
    cases rest with
    | nil => exact .inl rfl
    | cons c r2 =>
      cases r2 with
      | nil => exact .inr ⟨c, rfl⟩
      | cons d r3 => simp at hlen
  have main : ∀ ps body,
      (match checkIds ps (collectIdsList body) with
        | .error e => (.error e :
            Except HoistError (Bool × List Nat))
        | .ok adds => .ok (true, adds))
      ≠ .error (.invalidFactoryArgument f) := by
    intro ps body hbad
    cases hck : checkIds ps (collectIdsList body) with
    | error e =>
      rw [hck] at hbad
      obtain ⟨n, rfl⟩ := checkIds_error_shape ps _ e hck
      simp at hbad
    | ok adds => rw [hck] at hbad; simp at hbad
  rcases hcases with h | ⟨c, h⟩ <;> subst h <;>
    cases f <;> simp [FUNCTIONS_mock, isFunction] <;>
    exact main _ _

/-- Witness for C7: `jest.mock("m", 42)` raises the invalid-factory
error anchored at `42`; with a function second argument the call does
not raise it. -/
theorem c7_witness :
    FUNCTIONS_mock [.strLit "m", .otherLit 42]
      = .error (.invalidFactoryArgument (.otherLit 42))
    ∧ ¬ FUNCTIONS_mock [.strLit "m", .fn ⟨[], []⟩ []]
        = .error (.invalidFactoryArgument (.fn ⟨[], []⟩ [])) :=
  ⟨(c7_invalid_factory_iff (.strLit "m") (.otherLit 42) []
      (by simp)).mpr rfl,
   fun h => by
    have := (c7_invalid_factory_iff (.strLit "m") (.fn ⟨[], []⟩ [])
      [] (by simp)).mp h
    simp [isFunction] at this⟩

/-- C8: a free factory identifier unresolved in the chain is accepted
unconditionally — with nothing marked hoist-eligible — when it is a
global on the allow-list, or matches the case-insensitive `mock`
prefix, or matches the coverage-variable pattern. -/
theorem c8_allowlist_and_conventions :
    ∀ (ps : Scope) (name : String) (chain : List Scope),
    (chain.any fun sc => scopeHasOwnBinding sc name) = false →
    ((scopeHasGlobal ps name && ALLOWED_IDENTIFIERS.contains name)
      || mockPrefixTest name || covTest name) = true →
    checkId ps ⟨name, chain⟩ = .ok [] := by
  intro ps name chain h1 h2
  unfold checkId
  simp only [h1, h2]
  simp

/-- Witness for C8: the allow-listed global `require`, the
prefix-escape `mockFoo`, and the coverage variable `__cov_abc` are all
accepted with nothing recorded. -/
theorem c8_witness :
    checkId ⟨[], ["require"]⟩ ⟨"require", []⟩ = .ok []
    ∧ checkId ⟨[], []⟩ ⟨"mockFoo", []⟩ = .ok []
    ∧ checkId ⟨[], []⟩ ⟨"__cov_abc", []⟩ = .ok [] :=
  ⟨c8_allowlist_and_conventions ⟨[], ["require"]⟩ "require" [] rfl rfl,
   c8_allowlist_and_conventions ⟨[], []⟩ "mockFoo" [] rfl rfl,
   c8_allowlist_and_conventions ⟨[], []⟩ "__cov_abc" [] rfl rfl⟩

/-- C5: hoisting is strictly block-local.  A statement holding a nested
block contributes nothing to the enclosing block's hoisted variable or
call buckets and stays in place with its contents intact (provided its
own expression layer — here the `if` condition — holds no getter call),
and the nested block's contents are reordered only by the nested
block's own run of the per-block pass. -/
theorem c5_hoisting_block_local :
    ∀ (g : Option String) (hv : List Nat) (l1 l2 : List Stmt)
      (c : Expr) (ss : List Stmt),
    exprHasGetterCall g c = false →
    hoistedVarsOf hv (l1 ++ .ifStmt c (.block ss) :: l2)
      = hoistedVarsOf hv l1 ++ hoistedVarsOf hv l2
    ∧ hoistedCallsOf g hv (l1 ++ .ifStmt c (.block ss) :: l2)
      = hoistedCallsOf g hv l1 ++ hoistedCallsOf g hv l2
    ∧ keptStmtsOf g hv (l1 ++ .ifStmt c (.block ss) :: l2)
      = keptStmtsOf g hv l1
        ++ .ifStmt c (.block ss) :: keptStmtsOf g hv l2
    ∧ hoistStmt g hv (.ifStmt c (.block ss))
      = .ifStmt c (.block (blockHoist g hv (hoistStmts g hv ss))) := by
  intro g hv l1 l2 c ss hc
  refine ⟨?_, ?_, ?_, rfl⟩ <;>
    simp [hoistedVarsOf, hoistedCallsOf, keptStmtsOf, hoistedVarPieces,
      hoistedCallOf, keptOf, remainderAfterVarHoist,
      stmtGetterHoistable, hc]

/-- Witness for C5: with the getter in place, a block
`[A, if (c) { call("x") }, B]` is left in that order with the call kept
inside the `if` body, and the full transform on
`[A, if (c) { jest.mock("x") }, B]` rewrites and hoists only inside the
`if` body. -/
theorem c5_witness :
    (hoistedVarsOf [] ([.other 7] ++
        .ifStmt (.ident "c" ⟨false, none⟩)
          (.block [hoistedCallStmt "x"]) :: [.other 8])
      = hoistedVarsOf [] [.other 7] ++ hoistedVarsOf [] [.other 8]
    ∧ hoistedCallsOf (some getterName) [] ([.other 7] ++
        .ifStmt (.ident "c" ⟨false, none⟩)
          (.block [hoistedCallStmt "x"]) :: [.other 8])
      = hoistedCallsOf (some getterName) [] [.other 7]
        ++ hoistedCallsOf (some getterName) [] [.other 8]
    ∧ keptStmtsOf (some getterName) [] ([.other 7] ++
        .ifStmt (.ident "c" ⟨false, none⟩)
          (.block [hoistedCallStmt "x"]) :: [.other 8])
      = keptStmtsOf (some getterName) [] [.other 7]
        ++ .ifStmt (.ident "c" ⟨false, none⟩)
            (.block [hoistedCallStmt "x"])
          :: keptStmtsOf (some getterName) [] [.other 8]
    ∧ hoistStmt (some getterName) []
        (.ifStmt (.ident "c" ⟨false, none⟩)
          (.block [hoistedCallStmt "x"]))
      = .ifStmt (.ident "c" ⟨false, none⟩)
          (.block (blockHoist (some getterName) []
            (hoistStmts (some getterName) [] [hoistedCallStmt "x"]))))
    ∧ runTransform []
        [.other 7,
         .ifStmt (.ident "c" ⟨false, none⟩)
           (.block [jestMockStmt "x"]),
         .other 8]
      = .ok ([.getterDecl getterName, .other 7,
              .ifStmt (.ident "c" ⟨false, none⟩)
                (.block [hoistedCallStmt "x"]),
              .other 8], [], some getterName) :=
  ⟨c5_hoisting_block_local (some getterName) [] [.other 7] [.other 8]
      (.ident "c" ⟨false, none⟩) [hoistedCallStmt "x"] rfl, rfl⟩

/-- C10: identifiers occurring only inside the blacklisted annotation
node types are invisible to the factory's free-variable analysis: they
are collected by the unrestricted walk but not by `IDVisitor`, and the
`mock` rule accepts the factory without raising the out-of-scope error
and without marking anything hoist-eligible, whatever the identifier
and scope data are. -/
theorem c10_type_annotations_excluded :
    ∀ (i1 i2 i3 : FreeId) (ps : Scope) (m : String),
    allRefIdsList (annOnlyBody i1 i2 i3) = [i1, i2, i3]
    ∧ collectIdsList (annOnlyBody i1 i2 i3) = []
    ∧ FUNCTIONS_mock [.strLit m, .fn ps (annOnlyBody i1 i2 i3)]
        = .ok (true, []) := by
  intro i1 i2 i3 ps m
  refine ⟨?_, ?_, ?_⟩ <;>
    simp [annOnlyBody, allRefIdsList, allRefIds, collectIdsList,
      collectIds, FUNCTIONS_mock, checkIds]

/-! ### Helper lemmas toward idempotence of the whole transform -/

theorem isGetterCallee_none (e : Expr) : isGetterCallee none e = false := by
  cases e <;> simp [isGetterCallee]

mutual
theorem exprHasGetterCall_none :
    ∀ e : Expr, exprHasGetterCall none e = false
  | .ident n i => rfl
  | .strLit s => rfl
  | .otherLit t => rfl
  | .member obj p comp => by
    simp [exprHasGetterCall, exprHasGetterCall_none obj]
  | .call callee args => by
    simp [exprHasGetterCall, isGetterCallee_none,
      exprHasGetterCall_none callee, exprListHasGetterCall_none args]
  | .fn ps body => rfl
  | .otherExpr t => rfl

theorem exprListHasGetterCall_none :
    ∀ l : List Expr, exprListHasGetterCall none l = false
  | [] => rfl
  | e :: es => by
    simp [exprListHasGetterCall, exprHasGetterCall_none e,
      exprListHasGetterCall_none es]
end

theorem stmtGetterHoistable_none (s : Stmt) :
    stmtGetterHoistable none s = false := by
  cases s with
  | exprStmt e => simp [stmtGetterHoistable, exprHasGetterCall_none]
  | varDecl kind ds =>
    simp only [stmtGetterHoistable, List.any_eq_false]
    intro d hd
    cases d.init <;> simp [exprHasGetterCall_none]
  | ifStmt c b => simp [stmtGetterHoistable, exprHasGetterCall_none]
  | block ss => rfl
  | getterDecl n => rfl
  | emptyStmt => rfl
  | other t => rfl

theorem listFlatMapSelf {α : Type} (f : α → List α) (l : List α)
    (h : ∀ u ∈ l, f u = [u]) : l.flatMap f = l := by
  induction l with
  | nil => rfl
  | cons a l ih =>
    rw [List.flatMap_cons, h a (by simp),
      ih fun u hu => h u (by simp [hu])]
    rfl

theorem listFlatMapNil {α : Type} (f : α → List α) (l : List α)
    (h : ∀ u ∈ l, f u = []) : l.flatMap f = [] := by
  induction l with
  | nil => rfl
  | cons a l ih =>
    rw [List.flatMap_cons, h a (by simp),
      ih fun u hu => h u (by simp [hu])]
    rfl

theorem listFilterMapSelf {α : Type} (f : α → Option α) (l : List α)
    (h : ∀ u ∈ l, f u = some u) : l.filterMap f = l := by
  induction l with
  | nil => rfl
  | cons a l ih =>
    rw [List.filterMap_cons, h a (by simp),
      ih fun u hu => h u (by simp [hu])]

theorem listFilterMapNone {α : Type} (f : α → Option α) (l : List α)
    (h : ∀ u ∈ l, f u = none) : l.filterMap f = [] := by
  induction l with
  | nil => rfl
  | cons a l ih =>
    rw [List.filterMap_cons, h a (by simp),
      ih fun u hu => h u (by simp [hu])]

theorem containsAppendRight (l1 l2 : List Nat)
    (h : ∀ x ∈ l2, l1.contains x = true) :
    ∀ x, (l1 ++ l2).contains x = l1.contains x := by
  intro x
  have hiff : (l1 ++ l2).contains x = true ↔ l1.contains x = true := by
    constructor
    · intro hx
      simp only [List.contains_eq_any_beq, List.any_eq_true] at hx ⊢
      rcases hx with ⟨y, hy, hbeq⟩
      rcases List.mem_append.mp hy with h1 | h2
      · exact ⟨y, h1, hbeq⟩
      · have := h y h2
        simp only [List.contains_eq_any_beq, List.any_eq_true] at this
        rcases this with ⟨z, hz, hbz⟩
        exact ⟨z, hz, by simp_all⟩
    · intro hx
      simp only [List.contains_eq_any_beq, List.any_eq_true] at hx ⊢
      rcases hx with ⟨y, hy, hbeq⟩
      exact ⟨y, List.mem_append.mpr (.inl hy), hbeq⟩
  cases hA : (l1 ++ l2).contains x <;> cases hB : l1.contains x <;>
    simp_all

theorem varPieceSelf (hv : List Nat) (kind : String) (d : Declarator)
    (h : hv.contains d.declId = true) :
    hoistedVarPieces hv (.varDecl kind [d]) = [.varDecl kind [d]]
    ∧ remainderAfterVarHoist hv (.varDecl kind [d]) = none := by
  have hm : d.declId ∈ hv := by simpa using h
  constructor <;> simp [hoistedVarPieces, remainderAfterVarHoist, hm]

theorem remainderSomeCases (hv : List Nat) (s u : Stmt)
    (h : remainderAfterVarHoist hv s = some u) :
    u = s ∨ ∃ kind ds, u = .varDecl kind ds := by
  cases s <;> simp only [remainderAfterVarHoist] at h
  case varDecl kind ds =>
    split at h
    · simp at h
    · exact .inr ⟨kind, _, (Option.some.injEq _ _ ▸ h.symm)⟩
  all_goals exact .inl (Option.some.injEq _ _ ▸ h).symm

theorem remainderSomeFixed (hv : List Nat) (s u : Stmt)
    (h : remainderAfterVarHoist hv s = some u) :
    hoistedVarPieces hv u = []
    ∧ remainderAfterVarHoist hv u = some u := by
  cases s <;> simp only [remainderAfterVarHoist] at h
  case varDecl kind ds =>
    split at h
    · simp at h
    · rename_i hne
      have hu : u = Stmt.varDecl kind
          (ds.filter fun d => !hv.contains d.declId) := by
        exact (Option.some.injEq _ _ ▸ h).symm
      subst hu
      refine ⟨?_, ?_⟩
      · simp only [hoistedVarPieces, List.filter_filter]
        have hz : (ds.filter fun a =>
            hv.contains a.declId && !hv.contains a.declId) = [] := by
          refine List.filter_eq_nil_iff.mpr ?_
          intro d hd
          cases hc : hv.contains d.declId <;> simp [hc]
        rw [hz]
        rfl
      · simp only [remainderAfterVarHoist]
        rw [List.filter_eq_self.mpr fun d hd =>
          (List.mem_filter.mp hd).2]
        split
        · rename_i hemp
          exact absurd hemp hne
        · rfl
  all_goals
    have hu : u = _ := (Option.some.injEq _ _ ▸ h).symm
    subst hu
    exact ⟨rfl, rfl⟩

theorem memVarsBucket (hv : List Nat) (ss : List Stmt) :
    ∀ u ∈ hoistedVarsOf hv ss,
      hoistedVarPieces hv u = [u]
      ∧ remainderAfterVarHoist hv u = none := by
  intro u hu
  rcases List.mem_flatMap.mp hu with ⟨s, hs, hus⟩
  cases s <;> simp only [hoistedVarPieces] at hus <;> try simp at hus
  case varDecl kind ds =>
    rcases hus with ⟨d, ⟨hd, hdc⟩, rfl⟩
    exact varPieceSelf hv kind d (by simpa using hdc)

theorem memCallsBucket (g : Option String) (hv : List Nat)
    (ss : List Stmt) :
    ∀ u ∈ hoistedCallsOf g hv ss,
      hoistedVarPieces hv u = []
      ∧ remainderAfterVarHoist hv u = some u := by
  intro u hu
  rcases List.mem_filterMap.mp hu with ⟨s, hs, hsu⟩
  cases hr : remainderAfterVarHoist hv s with
  | none => simp [hoistedCallOf, hr] at hsu
  | some s2 =>
    simp only [hoistedCallOf, hr] at hsu
    split at hsu
    · have hu2 : s2 = u := by simpa using hsu
      subst hu2
      exact remainderSomeFixed hv s s2 hr
    · simp at hsu

theorem memKeptBucket (g : Option String) (hv : List Nat)
    (ss : List Stmt) :
    ∀ u ∈ keptStmtsOf g hv ss,
      hoistedVarPieces hv u = []
      ∧ remainderAfterVarHoist hv u = some u := by
  intro u hu
  rcases List.mem_filterMap.mp hu with ⟨s, hs, hsu⟩
  cases hr : remainderAfterVarHoist hv s with
  | none => simp [keptOf, hr] at hsu
  | some s2 =>
    simp only [keptOf, hr] at hsu
    split at hsu
    · simp at hsu
    · have hu2 : s2 = u := by simpa using hsu
      subst hu2
      exact remainderSomeFixed hv s s2 hr

theorem hoistedCallOfNoneGetter (hv : List Nat) (u : Stmt) :
    hoistedCallOf none hv u = none := by
  simp only [hoistedCallOf]
  cases remainderAfterVarHoist hv u with
  | none => rfl
  | some s2 => simp [stmtGetterHoistable_none]

theorem keptOfNoneGetter (hv : List Nat) (u s2 : Stmt)
    (h : remainderAfterVarHoist hv u = some s2) :
    keptOf none hv u = some s2 := by
  simp [keptOf, h, stmtGetterHoistable_none]

theorem varsOfFixedLists (hv : List Nat) (A B C : List Stmt)
    (hA : ∀ u ∈ A, hoistedVarPieces hv u = [u])
    (hB : ∀ u ∈ B, hoistedVarPieces hv u = [])
    (hC : ∀ u ∈ C, hoistedVarPieces hv u = []) :
    hoistedVarsOf hv (A ++ B ++ C) = A := by
  simp only [hoistedVarsOf, List.flatMap_append]
  rw [listFlatMapSelf _ _ hA, listFlatMapNil _ _ hB,
    listFlatMapNil _ _ hC]
  simp

theorem callsOfNoneGetter (hv : List Nat) (l : List Stmt) :
    hoistedCallsOf none hv l = [] :=
  listFilterMapNone _ _ fun u _ => hoistedCallOfNoneGetter hv u

theorem keptOfFixedLists (hv : List Nat) (A B C : List Stmt)
    (hA : ∀ u ∈ A, remainderAfterVarHoist hv u = none)
    (hB : ∀ u ∈ B, remainderAfterVarHoist hv u = some u)
    (hC : ∀ u ∈ C, remainderAfterVarHoist hv u = some u) :
    keptStmtsOf none hv (A ++ B ++ C) = B ++ C := by
  simp only [keptStmtsOf, List.filterMap_append]
  rw [listFilterMapNone _ _ fun u hu => by simp [keptOf, hA u hu],
    listFilterMapSelf _ _ fun u hu => keptOfNoneGetter hv u u (hB u hu),
    listFilterMapSelf _ _ fun u hu => keptOfNoneGetter hv u u (hC u hu)]
  simp

/-- Re-running `visitBlock` with no getter created on an
already-hoisted block reproduces it exactly. -/
theorem blockHoistIdem (g : Option String) (hv : List Nat)
    (ss : List Stmt) :
    blockHoist none hv (blockHoist g hv ss) = blockHoist g hv ss := by
  rw [blockHoist_parts g hv ss, blockHoist_parts none hv _]
  rw [varsOfFixedLists hv _ _ _
      (fun u hu => (memVarsBucket hv ss u hu).1)
      (fun u hu => (memCallsBucket g hv ss u hu).1)
      (fun u hu => (memKeptBucket g hv ss u hu).1),
    callsOfNoneGetter,
    keptOfFixedLists hv _ _ _
      (fun u hu => (memVarsBucket hv ss u hu).2)
      (fun u hu => (memCallsBucket g hv ss u hu).2)
      (fun u hu => (memKeptBucket g hv ss u hu).2)]
  simp

theorem memBlockHoistOrigin (g : Option String) (hv : List Nat)
    (ss : List Stmt) (u : Stmt) (h : u ∈ blockHoist g hv ss) :
    u ∈ ss ∨ ∃ kind ds, u = Stmt.varDecl kind ds := by
  rw [blockHoist_parts] at h
  rcases List.mem_append.mp h with h1 | h2
  · rcases List.mem_append.mp h1 with hV | hC
    · rcases List.mem_flatMap.mp hV with ⟨s, hs, hus⟩
      cases s <;> simp only [hoistedVarPieces] at hus <;>
        try simp at hus
      case varDecl kind ds =>
        rcases hus with ⟨d, hd, rfl⟩
        exact .inr ⟨kind, [d], rfl⟩
    · rcases List.mem_filterMap.mp hC with ⟨s, hs, hsu⟩
      cases hr : remainderAfterVarHoist hv s with
      | none => simp [hoistedCallOf, hr] at hsu
      | some s2 =>
        simp only [hoistedCallOf, hr] at hsu
        split at hsu
        · have hu2 : s2 = u := by simpa using hsu
          subst hu2
          rcases remainderSomeCases hv s s2 hr with rfl | hvd
          · exact .inl hs
          · exact .inr hvd
        · simp at hsu
  · rcases List.mem_filterMap.mp h2 with ⟨s, hs, hsu⟩
    cases hr : remainderAfterVarHoist hv s with
    | none => simp [keptOf, hr] at hsu
    | some s2 =>
      simp only [keptOf, hr] at hsu
      split at hsu
      · simp at hsu
      · have hu2 : s2 = u := by simpa using hsu
        subst hu2
        rcases remainderSomeCases hv s s2 hr with rfl | hvd
        · exact .inl hs
        · exact .inr hvd

theorem hoistStmtsIsMap (g : Option String) (hv : List Nat)
    (l : List Stmt) : hoistStmts g hv l = l.map (hoistStmt g hv) := by
  induction l with
  | nil => rfl
  | cons s ss ih => simp only [hoistStmts, List.map_cons, ih]

theorem hoistStmtsFixed (g : Option String) (hv : List Nat)
    (l : List Stmt) (h : ∀ t ∈ l, hoistStmt g hv t = t) :
    hoistStmts g hv l = l := by
  induction l with
  | nil => rfl
  | cons s ss ih =>
    simp only [hoistStmts]
    rw [h s (by simp), ih fun t ht => h t (by simp [ht])]

theorem hoistStmtVarDecl (g : Option String) (hv : List Nat)
    (kind : String) (ds : List Declarator) :
    hoistStmt g hv (.varDecl kind ds) = .varDecl kind ds := rfl

mutual
theorem hoistStmtIdem (g : Option String) (hv : List Nat) :
    ∀ s : Stmt, hoistStmt none hv (hoistStmt g hv s) = hoistStmt g hv s
  | .block ss => by
    simp only [hoistStmt]
    have hfix : ∀ t ∈ blockHoist g hv (hoistStmts g hv ss),
        hoistStmt none hv t = t := by
      intro t ht
      rcases memBlockHoistOrigin g hv _ t ht with hmem | ⟨kind, ds, rfl⟩
      · exact hoistStmtsMemIdem g hv ss t hmem
      · rfl
    rw [hoistStmtsFixed none hv _ hfix, blockHoistIdem g hv]
  | .ifStmt c b => by
    simp only [hoistStmt]
    rw [hoistStmtIdem g hv b]
  | .exprStmt e => rfl
  | .varDecl k ds => rfl
  | .getterDecl n => rfl
  | .emptyStmt => rfl
  | .other t => rfl

theorem hoistStmtsMemIdem (g : Option String) (hv : List Nat) :
    ∀ (ss : List Stmt) (t : Stmt), t ∈ hoistStmts g hv ss →
      hoistStmt none hv t = t
  | [], t, h => by simp [hoistStmts] at h
  | s :: ss, t, h => by
    simp only [hoistStmts, List.mem_cons] at h
    rcases h with rfl | h
    · exact hoistStmtIdem g hv s
    · exact hoistStmtsMemIdem g hv ss t h
end

theorem hoistedVarPiecesCongr (hv hv2 : List Nat)
    (h : ∀ x, hv2.contains x = hv.contains x) (s : Stmt) :
    hoistedVarPieces hv2 s = hoistedVarPieces hv s := by
  cases s <;> simp only [hoistedVarPieces]
  congr 1
  exact List.filter_congr fun d _ => h d.declId

theorem remainderCongr (hv hv2 : List Nat)
    (h : ∀ x, hv2.contains x = hv.contains x) (s : Stmt) :
    remainderAfterVarHoist hv2 s = remainderAfterVarHoist hv s := by
  cases s <;> simp only [remainderAfterVarHoist]
  rw [List.filter_congr fun d _ => by rw [h d.declId]]

theorem blockHoistCongr (g : Option String) (hv hv2 : List Nat)
    (h : ∀ x, hv2.contains x = hv.contains x) (ss : List Stmt) :
    blockHoist g hv2 ss = blockHoist g hv ss := by
  rw [blockHoist_parts, blockHoist_parts]
  have hpieces := hoistedVarPiecesCongr hv hv2 h
  have hrem := remainderCongr hv hv2 h
  rw [show hoistedVarsOf hv2 ss = hoistedVarsOf hv ss by
      simp only [hoistedVarsOf]
      induction ss with
      | nil => rfl
      | cons s rest ih =>
        simp only [List.flatMap_cons, hpieces s, ih],
    show hoistedCallsOf g hv2 ss = hoistedCallsOf g hv ss by
      simp only [hoistedCallsOf]
      induction ss with
      | nil => rfl
      | cons s rest ih =>
        simp only [List.filterMap_cons, hoistedCallOf, hrem s, ih],
    show keptStmtsOf g hv2 ss = keptStmtsOf g hv ss by
      simp only [keptStmtsOf]
      induction ss with
      | nil => rfl
      | cons s rest ih =>
        simp only [List.filterMap_cons, keptOf, hrem s, ih]]

mutual
theorem hoistStmtCongr (g : Option String) (hv hv2 : List Nat)
    (h : ∀ x, hv2.contains x = hv.contains x) :
    ∀ s : Stmt, hoistStmt g hv2 s = hoistStmt g hv s
  | .block ss => by
    simp only [hoistStmt]
    rw [hoistStmtsCongr g hv hv2 h ss, blockHoistCongr g hv hv2 h]
  | .ifStmt c b => by
    simp only [hoistStmt]
    rw [hoistStmtCongr g hv hv2 h b]
  | .exprStmt e => rfl
  | .varDecl k ds => rfl
  | .getterDecl n => rfl
  | .emptyStmt => rfl
  | .other t => rfl

theorem hoistStmtsCongr (g : Option String) (hv hv2 : List Nat)
    (h : ∀ x, hv2.contains x = hv.contains x) :
    ∀ ss : List Stmt, hoistStmts g hv2 ss = hoistStmts g hv ss
  | [] => rfl
  | s :: ss => by
    simp only [hoistStmts]
    rw [hoistStmtCongr g hv hv2 h s, hoistStmtsCongr g hv hv2 h ss]
end

/-- A rewritten chain is inert: once the resolved jest-object root has
been replaced by a getter call, the detector returns null on the result
(before reaching any validation rule) and records nothing. -/
theorem extractSomeInert :
    ∀ (e r : Expr) (adds : List Nat),
      extract e = .ok (some r, adds) →
      extract (replaceJestRoot getterName e) = .ok (none, [])
      ∧ ∃ co ar, replaceJestRoot getterName e = .call co ar
  | .call (.member obj prop false) args, r, adds, h => by
    by_cases hj : isJestObject obj
    · refine ⟨?_, ⟨.member (.call (.ident getterName ⟨false, none⟩) [])
        prop false, args, by simp [replaceJestRoot, hj]⟩⟩
      simp only [replaceJestRoot, hj, if_true]
      simp [extract, isJestObject]
    · have hobj : ∃ jr a0, extract obj = .ok (some jr, a0) := by
        simp only [extract] at h
        rw [if_neg hj] at h
        cases hx : extract obj with
        | error err => rw [hx] at h; simp at h
        | ok val =>
          obtain ⟨o, a0⟩ := val
          cases o with
          | none => rw [hx] at h; simp at h
          | some jr => exact ⟨jr, a0, rfl⟩
      obtain ⟨jr, a0, hx⟩ := hobj
      obtain ⟨hin, co, ar, heq⟩ := extractSomeInert obj jr a0 hx
      constructor
      · have hjf : isJestObject (replaceJestRoot getterName obj)
            = false := by rw [heq]; rfl
        simp only [replaceJestRoot]
        rw [if_neg hj]
        simp only [extract, hjf]
        rw [if_neg (by simp)]
        rw [hin]
      · exact ⟨.member (replaceJestRoot getterName obj) prop false,
          args, by simp only [replaceJestRoot]; rw [if_neg hj]⟩
  | .call (.member obj prop true) args, r, adds, h => by
    simp [extract] at h
  | .call (.ident n i) args, r, adds, h => by simp [extract] at h
  | .call (.strLit v) args, r, adds, h => by simp [extract] at h
  | .call (.otherLit t) args, r, adds, h => by simp [extract] at h
  | .call (.call c2 a2) args, r, adds, h => by simp [extract] at h
  | .call (.fn ps body) args, r, adds, h => by simp [extract] at h
  | .call (.otherExpr t) args, r, adds, h => by simp [extract] at h
  | .ident n i, r, adds, h => by simp [extract] at h
  | .strLit v, r, adds, h => by simp [extract] at h
  | .otherLit t, r, adds, h => by simp [extract] at h
  | .member obj p c, r, adds, h => by simp [extract] at h
  | .fn ps body, r, adds, h => by simp [extract] at h
  | .otherExpr t, r, adds, h => by simp [extract] at h

theorem stmtsInertMem (hv : List Nat) (l : List Stmt) :
    stmtsInert hv l = true ↔ ∀ s ∈ l, stmtInert hv s = true := by
  induction l with
  | nil => simp [stmtsInert]
  | cons s ss ih => simp [stmtsInert, ih]

mutual
theorem rewriteStmtOutInert :
    ∀ (s s2 : Stmt) (adds : List Nat) (rw1 : Bool),
      rewriteStmt s = .ok (s2, adds, rw1) →
      ∀ hvT : List Nat, (∀ x ∈ adds, hvT.contains x = true) →
      stmtInert hvT s2 = true
  | .exprStmt e, s2, adds, rw1, h, hvT, hsub => by
    simp only [rewriteStmt] at h
    cases hx : extract e with
    | error err => rw [hx] at h; simp at h
    | ok val =>
      obtain ⟨o, a⟩ := val
      cases o with
      | some root =>
        rw [hx] at h
        simp only [Except.ok.injEq, Prod.mk.injEq] at h
        obtain ⟨h1, h2, h3⟩ := h
        subst h1
        have hin := (extractSomeInert e root a hx).1
        simp [stmtInert, exprInert, hin]
      | none =>
        rw [hx] at h
        simp only [Except.ok.injEq, Prod.mk.injEq] at h
        obtain ⟨h1, h2, h3⟩ := h
        subst h1
        subst h2
        simp only [stmtInert, exprInert, hx]
        exact List.all_eq_true.mpr hsub
  | .block ss, s2, adds, rw1, h, hvT, hsub => by
    simp only [rewriteStmt] at h
    cases hx : rewriteStmts ss with
    | error err => rw [hx] at h; simp at h
    | ok val =>
      obtain ⟨ss2, a2, r2⟩ := val
      rw [hx] at h
      simp only [Except.ok.injEq, Prod.mk.injEq] at h
      obtain ⟨h1, h2, h3⟩ := h
      subst h1
      subst h2
      simp only [stmtInert]
      exact rewriteStmtsOutInert ss ss2 a2 r2 hx hvT hsub
  | .ifStmt c b, s2, adds, rw1, h, hvT, hsub => by
    simp only [rewriteStmt] at h
    cases hx : rewriteStmt b with
    | error err => rw [hx] at h; simp at h
    | ok val =>
      obtain ⟨b2, a2, r2⟩ := val
      rw [hx] at h
      simp only [Except.ok.injEq, Prod.mk.injEq] at h
      obtain ⟨h1, h2, h3⟩ := h
      subst h1
      subst h2
      simp only [stmtInert]
      exact rewriteStmtOutInert b b2 a2 r2 hx hvT hsub
  | .varDecl k ds, s2, adds, rw1, h, hvT, hsub => by
    simp only [rewriteStmt, Except.ok.injEq, Prod.mk.injEq] at h
    obtain ⟨h1, h2, h3⟩ := h
    subst h1
    rfl
  | .getterDecl n, s2, adds, rw1, h, hvT, hsub => by
    simp only [rewriteStmt, Except.ok.injEq, Prod.mk.injEq] at h
    obtain ⟨h1, h2, h3⟩ := h
    subst h1
    rfl
  | .emptyStmt, s2, adds, rw1, h, hvT, hsub => by
    simp only [rewriteStmt, Except.ok.injEq, Prod.mk.injEq] at h
    obtain ⟨h1, h2, h3⟩ := h
    subst h1
    rfl
  | .other t, s2, adds, rw1, h, hvT, hsub => by
    simp only [rewriteStmt, Except.ok.injEq, Prod.mk.injEq] at h
    obtain ⟨h1, h2, h3⟩ := h
    subst h1
    rfl

theorem rewriteStmtsOutInert :
    ∀ (ss ss2 : List Stmt) (adds : List Nat) (rw1 : Bool),
      rewriteStmts ss = .ok (ss2, adds, rw1) →
      ∀ hvT : List Nat, (∀ x ∈ adds, hvT.contains x = true) →
      stmtsInert hvT ss2 = true
  | [], ss2, adds, rw1, h, hvT, hsub => by
    simp only [rewriteStmts, Except.ok.injEq, Prod.mk.injEq] at h
    obtain ⟨h1, h2, h3⟩ := h
    subst h1
    rfl
  | s :: ss, ss2, adds, rw1, h, hvT, hsub => by
    simp only [rewriteStmts] at h
    cases hx : rewriteStmt s with
    | error err => rw [hx] at h; simp at h
    | ok val =>
      obtain ⟨s2, a1, r1⟩ := val
      rw [hx] at h
      cases hy : rewriteStmts ss with
      | error err => rw [hy] at h; simp at h
      | ok val2 =>
        obtain ⟨ss3, a2, r2⟩ := val2
        rw [hy] at h
        simp only [Except.ok.injEq, Prod.mk.injEq] at h
        obtain ⟨h1, h2, h3⟩ := h
        subst h1
        subst h2
        simp only [stmtsInert, Bool.and_eq_true]
        constructor
        · exact rewriteStmtOutInert s s2 a1 r1 hx hvT
            fun x hxa => hsub x (by simp [hxa])
        · exact rewriteStmtsOutInert ss ss3 a2 r2 hy hvT
            fun x hxa => hsub x (by simp [hxa])
end

mutual
theorem rewriteStmtOfInert :
    ∀ (s : Stmt) (hv : List Nat), stmtInert hv s = true →
      ∃ adds, rewriteStmt s = .ok (s, adds, false)
        ∧ ∀ x ∈ adds, hv.contains x = true
  | .exprStmt e, hv, h => by
    simp only [stmtInert, exprInert] at h
    cases hx : extract e with
    | error err => rw [hx] at h; simp at h
    | ok val =>
      obtain ⟨o, a⟩ := val
      cases o with
      | some root => rw [hx] at h; simp at h
      | none =>
        rw [hx] at h
        refine ⟨a, by simp [rewriteStmt, hx], ?_⟩
        intro x hxa
        exact List.all_eq_true.mp (by simpa using h) x hxa
  | .block ss, hv, h => by
    obtain ⟨adds, hrw, hsub⟩ :=
      rewriteStmtsOfInert ss hv (by simpa [stmtInert] using h)
    exact ⟨adds, by simp [rewriteStmt, hrw], hsub⟩
  | .ifStmt c b, hv, h => by
    obtain ⟨adds, hrw, hsub⟩ :=
      rewriteStmtOfInert b hv (by simpa [stmtInert] using h)
    exact ⟨adds, by simp [rewriteStmt, hrw], hsub⟩
  | .varDecl k ds, hv, h => ⟨[], rfl, by simp⟩
  | .getterDecl n, hv, h => ⟨[], rfl, by simp⟩
  | .emptyStmt, hv, h => ⟨[], rfl, by simp⟩
  | .other t, hv, h => ⟨[], rfl, by simp⟩

theorem rewriteStmtsOfInert :
    ∀ (ss : List Stmt) (hv : List Nat), stmtsInert hv ss = true →
      ∃ adds, rewriteStmts ss = .ok (ss, adds, false)
        ∧ ∀ x ∈ adds, hv.contains x = true
  | [], hv, h => ⟨[], rfl, by simp⟩
  | s :: ss, hv, h => by
    have hpair := (Bool.and_eq_true _ _).mp (by simpa [stmtsInert] using h)
    obtain ⟨a1, hrw1, hsub1⟩ := rewriteStmtOfInert s hv hpair.1
    obtain ⟨a2, hrw2, hsub2⟩ := rewriteStmtsOfInert ss hv hpair.2
    refine ⟨a1 ++ a2, by simp [rewriteStmts, hrw1, hrw2], ?_⟩
    intro x hxa
    rcases List.mem_append.mp hxa with hx1 | hx2
    · exact hsub1 x hx1
    · exact hsub2 x hx2
end

mutual
theorem stmtInertHoist (hvI : List Nat) (g : Option String)
    (hv2 : List Nat) :
    ∀ s : Stmt, stmtInert hvI s = true →
      stmtInert hvI (hoistStmt g hv2 s) = true
  | .block ss, h => by
    simp only [hoistStmt, stmtInert]
    rw [stmtsInertMem]
    intro u hu
    rcases memBlockHoistOrigin g hv2 _ u hu with hmem | ⟨kind, ds, rfl⟩
    · exact stmtsInertHoistMem hvI g hv2 ss
        (by simpa [stmtInert] using h) u hmem
    · rfl
  | .ifStmt c b, h => by
    simp only [hoistStmt, stmtInert] at h ⊢
    exact stmtInertHoist hvI g hv2 b h
  | .exprStmt e, h => h
  | .varDecl k ds, h => h
  | .getterDecl n, h => h
  | .emptyStmt, h => h
  | .other t, h => h

theorem stmtsInertHoistMem (hvI : List Nat) (g : Option String)
    (hv2 : List Nat) :
    ∀ ss : List Stmt, stmtsInert hvI ss = true →
      ∀ t ∈ hoistStmts g hv2 ss, stmtInert hvI t = true
  | [], h, t, ht => by simp [hoistStmts] at ht
  | s :: ss, h, t, ht => by
    have hpair := (Bool.and_eq_true _ _).mp (by simpa [stmtsInert] using h)
    simp only [hoistStmts, List.mem_cons] at ht
    rcases ht with rfl | ht
    · exact stmtInertHoist hvI g hv2 s hpair.1
    · exact stmtsInertHoistMem hvI g hv2 ss hpair.2 t ht
end

theorem runTransformSecondRun (hv1 : List Nat) (G : Option String)
    (P3 : List Stmt) (hin3 : ∀ s ∈ P3, stmtInert hv1 s = true) :
    ∃ hv2, runTransform hv1 (hoistProgram G hv1 P3)
        = .ok (hoistProgram G hv1 P3, hv2, none)
      ∧ ∀ x, hv2.contains x = hv1.contains x := by
  have hinp1 : ∀ s ∈ hoistProgram G hv1 P3, stmtInert hv1 s = true := by
    intro s hs
    simp only [hoistProgram] at hs
    rcases memBlockHoistOrigin G hv1 _ s hs with hmem | ⟨kind, ds, rfl⟩
    · exact stmtsInertHoistMem hv1 G hv1 P3
        ((stmtsInertMem hv1 P3).mpr hin3) s hmem
    · rfl
  obtain ⟨adds2, hrw2, hsub2⟩ :=
    rewriteStmtsOfInert (hoistProgram G hv1 P3) hv1
      ((stmtsInertMem hv1 (hoistProgram G hv1 P3)).mpr hinp1)
  have hcon := containsAppendRight hv1 adds2 hsub2
  refine ⟨hv1 ++ adds2, ?_, hcon⟩
  have hfix : ∀ t ∈ hoistProgram G hv1 P3, hoistStmt none hv1 t = t := by
    intro t ht
    simp only [hoistProgram] at ht
    rcases memBlockHoistOrigin G hv1 _ t ht with hmem | ⟨kind, ds, rfl⟩
    · exact hoistStmtsMemIdem G hv1 _ t hmem
    · rfl
  have hmain : hoistProgram none (hv1 ++ adds2) (hoistProgram G hv1 P3)
      = hoistProgram G hv1 P3 := by
    simp only [hoistProgram] at hfix ⊢
    rw [hoistStmtsCongr none hv1 (hv1 ++ adds2) hcon,
      blockHoistCongr none hv1 (hv1 ++ adds2) hcon,
      hoistStmtsFixed none hv1 _ hfix]
    exact blockHoistIdem G hv1 _
  simp only [runTransform, hrw2, Bool.false_eq_true, if_false, hmain]

/-- C9: the whole transform is idempotent — a second run on the output
of a successful run (with the persistent hoisted-variable registry
carried over) succeeds, produces a structurally identical tree, creates
no second getter, and leaves the registry with the same membership. -/
theorem c9_transform_idempotent :
    ∀ (hv0 : List Nat) (p p1 : List Stmt) (hv1 : List Nat)
      (g1 : Option String),
    runTransform hv0 p = .ok (p1, hv1, g1) →
    ∃ hv2, runTransform hv1 p1 = .ok (p1, hv2, none)
      ∧ ∀ x, hv2.contains x = hv1.contains x := by
  intro hv0 p p1 hv1 g1 h
  simp only [runTransform] at h
  cases hr : rewriteStmts p with
  | error e => rw [hr] at h; simp at h
  | ok val =>
    obtain ⟨p2, adds, created⟩ := val
    rw [hr] at h
    simp only [Except.ok.injEq, Prod.mk.injEq] at h
    obtain ⟨hp1, hhv1, hg1⟩ := h
    have hads : ∀ x ∈ adds, (hv0 ++ adds).contains x = true := by
      intro x hx
      have hm : x ∈ hv0 ++ adds := List.mem_append.mpr (.inr hx)
      simpa using hm
    have hin2 : stmtsInert (hv0 ++ adds) p2 = true :=
      rewriteStmtsOutInert p p2 adds created hr (hv0 ++ adds) hads
    subst hhv1
    subst hp1
    cases created with
    | true =>
      simp only [if_pos rfl]
      refine runTransformSecondRun (hv0 ++ adds) (some getterName)
        (.getterDecl getterName :: p2) ?_
      intro s hs
      rcases List.mem_cons.mp hs with rfl | hs2
      · rfl
      · exact (stmtsInertMem _ _).mp hin2 s hs2
    | false =>
      simp only [Bool.false_eq_true, if_false]
      exact runTransformSecondRun (hv0 ++ adds) none p2
        fun s hs => (stmtsInertMem _ _).mp hin2 s hs

/-- Witness for C9: a first run on `[jest.mock("x"), A]` rewrites and
hoists; the second run on its output changes nothing and creates no
getter. -/
theorem c9_witness :
    ∃ hv2, runTransform []
        [hoistedCallStmt "x", .getterDecl getterName, .other 0]
      = .ok ([hoistedCallStmt "x", .getterDecl getterName, .other 0],
          hv2, none)
      ∧ ∀ x, hv2.contains x = List.contains [] x :=
  c9_transform_idempotent [] [jestMockStmt "x", .other 0]
    [hoistedCallStmt "x", .getterDecl getterName, .other 0] []
    (some getterName) rfl

end JestHoist
